import Mathlib

/-!
Verification of the payment-to-invoice matching engine
(`app/services/matching_engine.py`).

The engine is embedded shallowly:

* Python `str` values become `String` (names are processed as `List Char`);
* `Decimal` amounts become `ℚ` (the Python code converts exact `Decimal`
  ratios to `float` before comparing; all arithmetic here is exact rational
  arithmetic, which agrees with the source on every concrete value used in
  the theorems below);
* `difflib.SequenceMatcher` (called with `isjunk=None`, `autojunk=True`) is
  embedded in full, including the autojunk popularity filter;
* Python `None` / object results become `Option`.
-/

namespace MatchingEngine

/-- Whitespace as recognised by Python `str.strip` on ASCII text:
space, tab, newline, vertical tab, form feed, carriage return. -/
def isPySpace (c : Char) : Bool :=
  c == ' ' || c == '\t' || c == '\n' || c == '\r' || c.toNat == 11 || c.toNat == 12

/-- Python `str.strip()`: drop whitespace from both ends. -/
def pyStrip (l : List Char) : List Char :=
  ((l.dropWhile isPySpace).reverse.dropWhile isPySpace).reverse

/-- Python `str.lower()` (ASCII model). -/
def lowerChars (l : List Char) : List Char :=
  l.map Char.toLower

/-- The business-entity suffix list of `normalize` inside
`calculate_name_similarity`, in source order. -/
def suffixList : List (List Char) :=
  [" ltd".toList, " ltd.".toList, " limited".toList, " inc".toList,
   " inc.".toList, " corp".toList, " corp.".toList, " llc".toList,
   " pte".toList, " pte.".toList, " co".toList, " co.".toList,
   " group".toList, " holdings".toList]

/-- Python `name[:-len(suffix)].strip()`: cut a final segment of the
suffix's length, then strip. -/
def cutSuffix (name suf : List Char) : List Char :=
  pyStrip (name.take (name.length - suf.length))

/-- One iteration of the suffix loop: `if name.endswith(suffix): name = name[:-len(suffix)].strip()`. -/
def stripSuffixStep (name suf : List Char) : List Char :=
  if suf.isSuffixOf name then cutSuffix name suf else name

/-- The inner `normalize` of `calculate_name_similarity`:
`name = name.lower().strip()`, then the suffix loop over `suffixList`
(the loop does not break: it continues over the remaining suffixes with
the updated name). -/
def normalize (name : List Char) : List Char :=
  suffixList.foldl stripSuffixStep (pyStrip (lowerChars name))

/-- The claim's reading of the normalizer: the result is the
lowercase-trimmed name with at most one listed suffix removed. -/
def specOneStrip (name : List Char) : Prop :=
  let base := pyStrip (lowerChars name)
  normalize name = base ∨
    ∃ suf ∈ suffixList, suf.isSuffixOf base = true ∧ normalize name = cutSuffix base suf

/-- `calculate_amount_similarity`: 1 on equal amounts, 0 on a zero second
amount, otherwise `max(0.0, 1.0 - (percentage_diff * 2))` with
`percentage_diff = |amount1 - amount2| / amount2`. -/
def calculate_amount_similarity (amount1 amount2 : ℚ) : ℚ :=
  if amount1 = amount2 then 1
  else if amount2 = 0 then 0
  else max 0 (1 - (|amount1 - amount2| / amount2) * 2)

instance (name : List Char) : Decidable (specOneStrip name) := by
  unfold specOneStrip; infer_instance

/-!
`difflib.SequenceMatcher`, as instantiated by `calculate_name_similarity`:
`SequenceMatcher(None, norm1, norm2).ratio()`. With `isjunk=None` the junk
set `bjunk` is empty, so the two junk-extension loops of
`find_longest_match` never run and the junk tests of the two
ordinary extension loops are vacuous; `autojunk=True` still applies.
-/

/-- Indices of character `c` in `b`, ascending (difflib's `b2j` before the
popularity purge). -/
def charPositions (b : List Char) (c : Char) : List Nat :=
  (List.range b.length).filter (fun j => b[j]? = some c)

/-- difflib `__chain_b`: `b2j`, with the autojunk purge — when
`len(b) >= 200`, characters occurring more than `len(b) // 100 + 1` times
are popular and dropped from `b2j`. -/
def b2j (b : List Char) (c : Char) : List Nat :=
  let ps := charPositions b c
  if 200 ≤ b.length ∧ b.length / 100 + 1 < ps.length then [] else ps

/-- State of the `find_longest_match` main loop: the best block found so
far and the `j2len` dict of the current row (total map, absent keys read
as 0, which is how the Python code reads it via `j2len.get(j-1, 0)`). -/
structure FlmState where
  besti : Nat
  bestj : Nat
  bestsize : Nat
  j2len : Nat → Nat

/-- Inner loop body of `find_longest_match` at row `i`, column `j`:
`k = newj2len[j] = j2len.get(j-1, 0) + 1`, updating the best block when
`k > bestsize`. `old` is the previous row's `j2len`; Python's `j-1` key
for `j = 0` is `-1`, which is never present, hence the `j = 0` case. -/
def flmInner (old : Nat → Nat) (i : Nat) (st : FlmState) (j : Nat) : FlmState :=
  let k := (if j = 0 then 0 else old (j - 1)) + 1
  let nj := fun x => if x = j then k else st.j2len x
  if st.bestsize < k then ⟨i + 1 - k, j + 1 - k, k, nj⟩
  else { st with j2len := nj }

/-- One row of the `find_longest_match` main loop. The column list is
`b2j.get(a[i], nothing)` with columns `j < blo` skipped (`continue`) and
the scan stopped at the first `j >= bhi` (`break`; `b2j` lists are
ascending, so this is a `takeWhile`). `newj2len` starts empty each row. -/
def flmRow (a b : List Char) (blo bhi : Nat) (st : FlmState) (i : Nat) : FlmState :=
  let js := match a[i]? with
    | some c => ((b2j b c).filter (fun j => blo ≤ j)).takeWhile (fun j => j < bhi)
    | none => []
  js.foldl (flmInner st.j2len i) { st with j2len := fun _ => 0 }

/-- The main loop of `find_longest_match` over rows `alo, ..., ahi - 1`,
starting from `besti, bestj, bestsize = alo, blo, 0` and an empty `j2len`. -/
def flmLoop (a b : List Char) (alo ahi blo bhi : Nat) : FlmState :=
  (List.range' alo (ahi - alo)).foldl (flmRow a b blo bhi) ⟨alo, blo, 0, fun _ => 0⟩

/-- First extension loop of `find_longest_match`: grow the block downwards
while `besti > alo and bestj > blo and a[besti-1] == b[bestj-1]` (the junk
test is vacuous since `bjunk` is empty). Structural recursion on `besti`;
at `besti = 0` the loop guard `alo < besti` is false, as in the source. -/
def extendLower (a b : List Char) (alo blo : Nat) : Nat → Nat → Nat → Nat × Nat × Nat
  | 0, bestj, bestsize => (0, bestj, bestsize)
  | besti + 1, bestj, bestsize =>
    if alo < besti + 1 ∧ blo < bestj ∧ a[besti]? = b[bestj - 1]? then
      extendLower a b alo blo besti (bestj - 1) (bestsize + 1)
    else (besti + 1, bestj, bestsize)

/-- Second extension loop of `find_longest_match`, fuel-structured: grow
the block upwards while `besti+bestsize < ahi and bestj+bestsize < bhi and
a[besti+bestsize] == b[bestj+bestsize]`. Each iteration requires
`besti + bestsize < ahi` and increments `bestsize`, so at most `ahi`
iterations can ever run; `extendUpper` supplies fuel `ahi`, which is
therefore never exhausted while the loop guard still holds. -/
def extendUpperGo (a b : List Char) (ahi bhi besti bestj : Nat) :
    Nat → Nat → Nat × Nat × Nat
  | 0, bestsize => (besti, bestj, bestsize)
  | fuel + 1, bestsize =>
    if besti + bestsize < ahi ∧ bestj + bestsize < bhi ∧
        a[besti + bestsize]? = b[bestj + bestsize]? then
      extendUpperGo a b ahi bhi besti bestj fuel (bestsize + 1)
    else (besti, bestj, bestsize)

/-- Second extension loop of `find_longest_match` (see `extendUpperGo`). -/
def extendUpper (a b : List Char) (ahi bhi : Nat) (besti bestj bestsize : Nat) :
    Nat × Nat × Nat :=
  extendUpperGo a b ahi bhi besti bestj ahi bestsize

/-- difflib `find_longest_match` on `a[alo:ahi]`, `b[blo:bhi]` (with
`isjunk=None`): the main loop, then the two extension loops. -/
def find_longest_match (a b : List Char) (alo ahi blo bhi : Nat) : Nat × Nat × Nat :=
  let st := flmLoop a b alo ahi blo bhi
  let lo := extendLower a b alo blo st.besti st.bestj st.bestsize
  extendUpper a b ahi bhi lo.1 lo.2.1 lo.2.2

/-- Total size of the matching blocks of `get_matching_blocks` restricted
to `a[alo:ahi]`, `b[blo:bhi]`: the longest match plus the recursive
decomposition on each side (the Python queue explores the same ranges;
the final sort-and-merge step does not change the total size). Fuel-based
recursion; the initial fuel `len(a) + len(b) + 1` dominates the recursion
depth for every call made from `ratio`. -/
def matchingSizes (a b : List Char) : Nat → Nat → Nat → Nat → Nat → Nat
  | 0, _, _, _, _ => 0
  | fuel + 1, alo, ahi, blo, bhi =>
    let m := find_longest_match a b alo ahi blo bhi
    let i := m.1
    let j := m.2.1
    let k := m.2.2
    if k = 0 then 0
    else
      k + (if alo < i ∧ blo < j then matchingSizes a b fuel alo i blo j else 0)
        + (if i + k < ahi ∧ j + k < bhi then matchingSizes a b fuel (i + k) ahi (j + k) bhi
           else 0)

/-- difflib `ratio()`: `2.0 * matches / (len(a) + len(b))`, and 1.0 when
both sequences are empty (`_calculate_ratio`). -/
def smRatio (a b : List Char) : ℚ :=
  let msum := matchingSizes a b (a.length + b.length + 1) 0 a.length 0 b.length
  if a.length + b.length = 0 then 1
  else 2 * (msum : ℚ) / ((a.length : ℚ) + (b.length : ℚ))

/-- `calculate_name_similarity`: normalize both names, take the
`SequenceMatcher` ratio, and add the containment boost 0.2 (clamped to 1)
when either normalized name is a substring of the other. -/
def calculate_name_similarity (name1 name2 : String) : ℚ :=
  let norm1 := normalize name1.toList
  let norm2 := normalize name2.toList
  let similarity := smRatio norm1 norm2
  if norm1 <:+: norm2 ∨ norm2 <:+: norm1 then
    min 1 (similarity + 1 / 5)
  else similarity

/-!
Data model (`app/models/schemas.py`). Amounts (`Decimal`) are `ℚ`; dates
are kept as opaque strings (the engine never reads them).
-/

/-- `BankTransaction` of `schemas.py`. -/
structure BankTransaction where
  value_date : String
  reference_no : String
  description : String
  payer_name : String
  amount : ℚ
  currency : String
deriving DecidableEq

/-- `Invoice` of `schemas.py`. -/
structure Invoice where
  invoice_id : String
  client_name : String
  matter_id : String
  invoice_date : String
  invoice_amount : ℚ
  currency : String
  due_date : String
  status : String
deriving DecidableEq

/-- `Remittance` of `schemas.py`. -/
structure Remittance where
  remittance_id : String
  payer_name : String
  invoice_reference : String
  payment_amount : ℚ
  notes : String
deriving DecidableEq

/-- `MatchedPosting` of `schemas.py` (the three optional amounts are
always passed by the engine). -/
structure MatchedPosting where
  payment_ref : String
  payer_name : String
  matched_invoice : String
  match_type : String
  confidence : String
  posting_status : String
  bank_amount : Option ℚ
  invoice_amount : Option ℚ
  amount_difference : Option ℚ
deriving DecidableEq

/-- Python `int()` on a rational: truncation toward zero. Every value the
engine truncates is nonnegative, where this is the floor. -/
def pyInt (q : ℚ) : ℤ :=
  if q < 0 then ⌈q⌉ else ⌊q⌋

/-- The remittance scan of `match_by_invoice_reference`: the first
remittance whose name similarity with the transaction's payer exceeds 0.6
and whose amount similarity with the transaction's amount exceeds 0.8
(the loop breaks at the first hit). -/
def findMatchingRemittance (t : BankTransaction) : List Remittance → Option Remittance
  | [] => none
  | r :: rs =>
    if 0.6 < calculate_name_similarity t.payer_name r.payer_name ∧
        0.8 < calculate_amount_similarity t.amount r.payment_amount then some r
    else findMatchingRemittance t rs

/-- The invoice scan of `match_by_invoice_reference`: the first invoice
whose `invoice_id` equals the remittance's `invoice_reference` exactly. -/
def findInvoiceById (ref : String) : List Invoice → Option Invoice
  | [] => none
  | inv :: rest => if inv.invoice_id = ref then some inv else findInvoiceById ref rest

/-- Classification step of `match_by_invoice_reference`: "Exact" when the
amount similarity against the invoice exceeds 0.95, else "Reference",
with the corresponding capped confidence, returned as `confidence / 100.0`. -/
def refClassify (t : BankTransaction) (inv : Invoice) : String × ℚ :=
  let name_sim := calculate_name_similarity t.payer_name inv.client_name
  let amount_sim := calculate_amount_similarity t.amount inv.invoice_amount
  if 0.95 < amount_sim then
    ("Exact", ((min 99 (85 + pyInt (amount_sim * 10) + pyInt (name_sim * 5)) : ℤ) : ℚ) / 100)
  else
    ("Reference", ((min 98 (80 + pyInt (amount_sim * 10) + pyInt (name_sim * 5)) : ℤ) : ℚ) / 100)

/-- `match_by_invoice_reference`: find a matching remittance, then the
invoice its `invoice_reference` cites, then classify. -/
def match_by_invoice_reference (t : BankTransaction) (remittances : List Remittance)
    (invoices : List Invoice) : Option (Invoice × Remittance × String × ℚ) :=
  match findMatchingRemittance t remittances with
  | none => none
  | some matching_remittance =>
    match findInvoiceById matching_remittance.invoice_reference invoices with
    | none => none
    | some matching_invoice =>
      let c := refClassify t matching_invoice
      some (matching_invoice, matching_remittance, c.1, c.2)

/-- Combined fuzzy score of an invoice against a transaction:
`(name_sim * 0.4) + (amount_sim * 0.6)`. -/
def combinedScore (t : BankTransaction) (inv : Invoice) : ℚ :=
  calculate_name_similarity t.payer_name inv.client_name * 0.4 +
    calculate_amount_similarity t.amount inv.invoice_amount * 0.6

/-- Match-type classification of a fuzzy candidate, computed from its two
similarity scores at update time. -/
def fuzzyType (t : BankTransaction) (inv : Invoice) : String :=
  let name_sim := calculate_name_similarity t.payer_name inv.client_name
  let amount_sim := calculate_amount_similarity t.amount inv.invoice_amount
  if 0.8 < name_sim ∧ 0.9 < amount_sim then "Fuzzy (name)"
  else if 0.85 < amount_sim then "Fuzzy (amount)"
  else "Contextual"

/-- The loop of `fuzzy_match`: scan invoices in order, skipping excluded
ids and cross-currency candidates; adopt a candidate when its combined
score strictly exceeds the best so far and exceeds 0.7; the best invoice
and its match type are kept together with the best score. Python stores
them in separate variables that are only ever assigned together. -/
def fuzzyLoop (t : BankTransaction) (exclude_invoice_ids : List String) :
    List Invoice → Option (Invoice × String) → ℚ → Option (Invoice × String) × ℚ
  | [], best, best_score => (best, best_score)
  | inv :: rest, best, best_score =>
    if inv.invoice_id ∈ exclude_invoice_ids then
      fuzzyLoop t exclude_invoice_ids rest best best_score
    else if ¬ t.currency = inv.currency then
      fuzzyLoop t exclude_invoice_ids rest best best_score
    else
      let combined_score := combinedScore t inv
      if best_score < combined_score ∧ 0.7 < combined_score then
        fuzzyLoop t exclude_invoice_ids rest (some (inv, fuzzyType t inv)) combined_score
      else fuzzyLoop t exclude_invoice_ids rest best best_score

/-- `fuzzy_match`: the fallback strategy. The default `exclude_invoice_ids
= None` becomes the empty set, modelled as the empty list. -/
def fuzzy_match (t : BankTransaction) (invoices : List Invoice)
    (exclude_invoice_ids : List String) : Option (Invoice × String × ℚ) :=
  match fuzzyLoop t exclude_invoice_ids invoices none 0 with
  | (none, _) => none
  | (some (best_match, best_match_type), best_score) =>
    some (best_match, best_match_type, ((min 98 (pyInt (best_score * 100)) : ℤ) : ℚ) / 100)

/-- Posting assembly shared by both branches of `match_payment_to_invoice`:
`confidence` is rendered as `f"{int(confidence * 100)}%"`. -/
def buildPosting (t : BankTransaction) (inv : Invoice) (match_type : String)
    (confidence : ℚ) : MatchedPosting :=
  { payment_ref := t.reference_no
    payer_name := t.payer_name
    matched_invoice := inv.invoice_id
    match_type := match_type
    confidence := toString (pyInt (confidence * 100)) ++ "%"
    posting_status := "Auto-posted"
    bank_amount := some t.amount
    invoice_amount := some inv.invoice_amount
    amount_difference := some (t.amount - inv.invoice_amount) }

/-- `match_payment_to_invoice`: try `match_by_invoice_reference`, then
`fuzzy_match` (with no exclusions), and build the posting from the winner;
`None` when both strategies fail. -/
def match_payment_to_invoice (t : BankTransaction) (remittances : List Remittance)
    (invoices : List Invoice) : Option MatchedPosting :=
  match match_by_invoice_reference t remittances invoices with
  | some (invoice, _, match_type, confidence) =>
    some (buildPosting t invoice match_type confidence)
  | none =>
    match fuzzy_match t invoices [] with
    | some (invoice, match_type, confidence) =>
      some (buildPosting t invoice match_type confidence)
    | none => none

/- ### Helper lemmas -/

theorem foldl_stripSuffixStep_sublist (L : List (List Char)) (acc : List Char) :
    ∃ sufs : List (List Char),
      List.Sublist sufs L ∧ L.foldl stripSuffixStep acc = sufs.foldl cutSuffix acc := by
  induction L generalizing acc with
  | nil => exact ⟨[], List.Sublist.refl _, rfl⟩
  | cons s L ih =>
    simp only [List.foldl_cons, stripSuffixStep]
    by_cases h : s.isSuffixOf acc
    · obtain ⟨sufs, hsub, heq⟩ := ih (cutSuffix acc s)
      exact ⟨s :: sufs, hsub.cons₂ s, by simpa [h] using heq⟩
    · obtain ⟨sufs, hsub, heq⟩ := ih acc
      exact ⟨sufs, hsub.cons s, by simpa [h] using heq⟩

theorem calculate_amount_similarity_nonneg (x y : ℚ) :
    0 ≤ calculate_amount_similarity x y := by
  unfold calculate_amount_similarity
  split_ifs with h1 h2
  · norm_num
  · norm_num
  · exact le_max_left 0 _

/-- The predicate of the remittance scan, as a Boolean. -/
def remPred (t : BankTransaction) (r : Remittance) : Bool :=
  decide (0.6 < calculate_name_similarity t.payer_name r.payer_name) &&
    decide (0.8 < calculate_amount_similarity t.amount r.payment_amount)

theorem findMatchingRemittance_eq_find (t : BankTransaction) (l : List Remittance) :
    findMatchingRemittance t l = l.find? (remPred t) := by
  induction l with
  | nil => rfl
  | cons r rs ih =>
    by_cases h1 : 0.6 < calculate_name_similarity t.payer_name r.payer_name <;>
      by_cases h2 : 0.8 < calculate_amount_similarity t.amount r.payment_amount <;>
      simp [findMatchingRemittance, List.find?_cons, remPred, h1, h2, ih]

theorem findInvoiceById_eq_find (ref : String) (l : List Invoice) :
    findInvoiceById ref l = l.find? (fun inv => inv.invoice_id == ref) := by
  induction l with
  | nil => rfl
  | cons inv rest ih =>
    by_cases h : inv.invoice_id = ref <;>
      simp [findInvoiceById, List.find?_cons, h, ih]

/- ### C1 -/

/-- C1 counterexample: on the input "acme co ltd" the normalizer strips
two suffixes (" ltd", then the newly exposed " co"), returning "acme",
which is neither the trimmed-lowercase input nor any single-suffix
removal of it. -/
theorem normalize_not_one_strip : ¬ specOneStrip ("acme co ltd".toList) := by
  decide

/-- C1 (amended): the normalizer makes a single in-order pass over the
suffix list, stripping and re-trimming each time the current name ends
with the suffix under consideration, so the result is the trimmed
lowercase name with an in-order chain (a sublist) of listed suffixes
removed; several suffixes can go in one call ("acme co ltd" → "acme"),
but suffixes listed before the current position are never revisited
("acme ltd co" → "acme ltd"). -/
theorem normalize_strips_suffix_chain :
    (∀ name : List Char, ∃ sufs : List (List Char), List.Sublist sufs suffixList ∧
        normalize name = sufs.foldl cutSuffix (pyStrip (lowerChars name))) ∧
      normalize ("acme co ltd".toList) = "acme".toList ∧
      normalize ("acme ltd co".toList) = "acme ltd".toList := by
  refine ⟨fun name => foldl_stripSuffixStep_sublist suffixList _, by decide, by decide⟩

/- ### C2 -/

/-- C2 counterexample: for amounts x = 0, y = -1 the similarity is 3,
outside the claimed interval [0, 1]. -/
theorem amount_similarity_escapes_unit_interval :
    calculate_amount_similarity 0 (-1) = 3 ∧ ¬ calculate_amount_similarity 0 (-1) ≤ 1 := by
  norm_num [calculate_amount_similarity]

/-- C2 (amended): `calculate_amount_similarity x y` is 1 when x = y, 0
when y = 0 and x ≠ y, and otherwise `max 0 (1 - 2|x - y|/y)`; the result
lies in [0, 1] whenever y ≥ 0, but for y < 0 and x ≠ y it exceeds 1
(e.g. 3 at x = 0, y = -1). -/
theorem amount_similarity_spec (x y : ℚ) (hy : 0 ≤ y) :
    (x = y → calculate_amount_similarity x y = 1) ∧
      (y = 0 → x ≠ y → calculate_amount_similarity x y = 0) ∧
      (x ≠ y → y ≠ 0 → calculate_amount_similarity x y = max 0 (1 - 2 * |x - y| / y)) ∧
      0 ≤ calculate_amount_similarity x y ∧ calculate_amount_similarity x y ≤ 1 := by
  refine ⟨?_, ?_, ?_, calculate_amount_similarity_nonneg x y, ?_⟩
  · intro h
    rw [calculate_amount_similarity, if_pos h]
  · intro h0 hne
    rw [calculate_amount_similarity, if_neg hne, if_pos h0]
  · intro hne h0
    rw [calculate_amount_similarity, if_neg hne, if_neg h0]
    congr 1
    ring
  · rw [calculate_amount_similarity]
    split_ifs with h1 h2
    · norm_num
    · norm_num
    · have hy' : 0 < y := lt_of_le_of_ne hy (Ne.symm h2)
      have habs : 0 ≤ |x - y| / y * 2 := by positivity
      exact max_le (by norm_num) (by linarith)

/-- C2 witness: the amended statement instantiated at x = 110, y = 100. -/
theorem amount_similarity_spec_witness :
    calculate_amount_similarity 110 100 = max 0 (1 - 2 * |(110 : ℚ) - 100| / 100) ∧
      0 ≤ calculate_amount_similarity 110 100 ∧ calculate_amount_similarity 110 100 ≤ 1 := by
  obtain ⟨-, -, h3, h4, h5⟩ := amount_similarity_spec (110 : ℚ) 100 (by norm_num)
  exact ⟨h3 (by norm_num) (by norm_num), h4, h5⟩

/- ### C6 -/

/-- C6: amount similarity is asymmetric: similarity(110, 100) = 0.80 while
similarity(100, 110) = 9/11 ≈ 0.818; likewise similarity(100, 90) ≠
similarity(90, 100). -/
theorem amount_similarity_asymmetric :
    calculate_amount_similarity 110 100 = 4 / 5 ∧
      calculate_amount_similarity 100 110 = 9 / 11 ∧
      calculate_amount_similarity 110 100 ≠ calculate_amount_similarity 100 110 ∧
      calculate_amount_similarity 100 90 ≠ calculate_amount_similarity 90 100 ∧
      |calculate_amount_similarity 100 110 - 818 / 1000| < 1 / 1000 := by
  norm_num [calculate_amount_similarity, abs]

/- ### C3 -/

/-- C3: the reference matcher selects the first remittance in input order
clearing both thresholds (name similarity > 0.6 and amount similarity
> 0.8) — `List.find?` semantics, so no later remittance is considered
once an earlier one clears both, even if it scores higher — then looks up
the first invoice whose id equals that remittance's reference and
classifies it; when no remittance clears both thresholds the strategy
returns no match. -/
theorem reference_matcher_first_match (t : BankTransaction)
    (remittances : List Remittance) (invoices : List Invoice) :
    (match_by_invoice_reference t remittances invoices =
      (remittances.find? (remPred t)).bind
        (fun rem =>
          (invoices.find? (fun inv => inv.invoice_id == rem.invoice_reference)).map
            (fun inv => (inv, rem, (refClassify t inv).1, (refClassify t inv).2)))) ∧
    ((∀ r ∈ remittances, ¬(0.6 < calculate_name_similarity t.payer_name r.payer_name ∧
        0.8 < calculate_amount_similarity t.amount r.payment_amount)) →
      match_by_invoice_reference t remittances invoices = none) := by
  have key : match_by_invoice_reference t remittances invoices =
      (remittances.find? (remPred t)).bind
        (fun rem =>
          (invoices.find? (fun inv => inv.invoice_id == rem.invoice_reference)).map
            (fun inv => (inv, rem, (refClassify t inv).1, (refClassify t inv).2))) := by
    unfold match_by_invoice_reference
    rw [findMatchingRemittance_eq_find]
    cases hr : remittances.find? (remPred t) with
    | none => rfl
    | some rem =>
      dsimp only
      rw [findInvoiceById_eq_find]
      cases hi : invoices.find? (fun inv => inv.invoice_id == rem.invoice_reference) with
      | none => simp [hi]
      | some inv => simp [hi]
  refine ⟨key, fun h => ?_⟩
  have hnone : remittances.find? (remPred t) = none := by
    rw [List.find?_eq_none]
    intro r hr
    simpa [remPred] using h r hr
  rw [key, hnone]
  rfl

/-- C3 witness: a remittance whose payment amount has similarity 0 with
the transaction amount clears no threshold, so the strategy returns no
match. -/
theorem reference_matcher_first_match_witness :
    match_by_invoice_reference
      { value_date := "", reference_no := "T1", description := "", payer_name := "Acme",
        amount := 5, currency := "USD" }
      [{ remittance_id := "R1", payer_name := "Acme", invoice_reference := "I1",
         payment_amount := 0, notes := "" }] [] = none := by
  refine (reference_matcher_first_match _ _ _).2 ?_
  intro r hr
  simp only [List.mem_singleton] at hr
  subst hr
  intro hc
  have h0 : calculate_amount_similarity 5 0 = 0 := by
    norm_num [calculate_amount_similarity]
  rw [h0] at hc
  exact absurd hc.2 (by norm_num)

/- ### C7 -/

/-- C7: the orchestrator signals "no match" as an explicit absence:
`match_payment_to_invoice` returns `none` exactly when the reference
strategy and the fuzzy strategy both fail, and otherwise returns a
posting built from the winning strategy (never a sentinel for an
unmatched payment; the embedding is total, so no exception is possible). -/
theorem orchestrator_none_iff_both_fail (t : BankTransaction)
    (remittances : List Remittance) (invoices : List Invoice) :
    match_payment_to_invoice t remittances invoices = none ↔
      (match_by_invoice_reference t remittances invoices = none ∧
        fuzzy_match t invoices [] = none) := by
  unfold match_payment_to_invoice
  cases h1 : match_by_invoice_reference t remittances invoices with
  | some x =>
    obtain ⟨inv, rem, ty, cf⟩ := x
    simp [h1]
  | none =>
    cases h2 : fuzzy_match t invoices [] with
    | some x =>
      obtain ⟨inv, ty, cf⟩ := x
      simp [h2]
    | none => simp [h2]

/- ### C5 -/

theorem pyInt_eq_of_eq_int (q : ℚ) (m : ℤ) (h : q = m) (hm : 0 ≤ m) : pyInt q = m := by
  subst h
  rw [pyInt, if_neg (by exact_mod_cast not_lt.mpr hm)]
  exact Int.floor_intCast m

theorem amount_similarity_self (x : ℚ) : calculate_amount_similarity x x = 1 := by
  simp [calculate_amount_similarity]

theorem nameSim_acme_holdings_acme : calculate_name_similarity "Acme Holdings" "Acme" = 1 := by
  have hn1 : normalize "Acme Holdings".toList = ['a', 'c', 'm', 'e'] := by decide
  have hn2 : normalize "Acme".toList = ['a', 'c', 'm', 'e'] := by decide
  have hm : matchingSizes ['a', 'c', 'm', 'e'] ['a', 'c', 'm', 'e'] 9 0 4 0 4 = 4 := by decide
  unfold calculate_name_similarity
  rw [hn1, hn2, if_pos (Or.inl (List.infix_refl _))]
  simp only [smRatio]
  norm_num [hm, min_eq_left]

theorem nameSim_acme_holdings_acme_corp :
    calculate_name_similarity "Acme Holdings" "Acme Corp" = 1 := by
  have hn1 : normalize "Acme Holdings".toList = ['a', 'c', 'm', 'e'] := by decide
  have hn2 : normalize "Acme Corp".toList = ['a', 'c', 'm', 'e'] := by decide
  have hm : matchingSizes ['a', 'c', 'm', 'e'] ['a', 'c', 'm', 'e'] 9 0 4 0 4 = 4 := by decide
  unfold calculate_name_similarity
  rw [hn1, hn2, if_pos (Or.inl (List.infix_refl _))]
  simp only [smRatio]
  norm_num [hm, min_eq_left]

/-- The end-to-end fixture transaction of the spec's first scenario. -/
def acmeTx : BankTransaction :=
  { value_date := "2024-01-01", reference_no := "TX-1", description := "Wire",
    payer_name := "Acme Holdings", amount := 1000, currency := "USD" }

/-- The fixture remittance. -/
def acmeRem : Remittance :=
  { remittance_id := "R-1", payer_name := "Acme", invoice_reference := "INV-100",
    payment_amount := 1000, notes := "" }

/-- The fixture invoice. -/
def acmeInv : Invoice :=
  { invoice_id := "INV-100", client_name := "Acme Corp", matter_id := "M-1",
    invoice_date := "2024-01-01", invoice_amount := 1000, currency := "USD",
    due_date := "2024-02-01", status := "Open" }

theorem ref_match_acme :
    match_by_invoice_reference acmeTx [acmeRem] [acmeInv] =
      some (acmeInv, acmeRem, "Exact", 99 / 100) := by
  have hsim : calculate_amount_similarity (1000 : ℚ) 1000 = 1 := amount_similarity_self 1000
  have h1 : findMatchingRemittance acmeTx [acmeRem] = some acmeRem := by
    norm_num [findMatchingRemittance, acmeTx, acmeRem, nameSim_acme_holdings_acme, hsim]
  have h4 : refClassify acmeTx acmeInv = ("Exact", 99 / 100) := by
    unfold refClassify
    have hp1 : pyInt (10 : ℚ) = 10 := pyInt_eq_of_eq_int _ 10 (by norm_num) (by norm_num)
    have hp2 : pyInt (5 : ℚ) = 5 := pyInt_eq_of_eq_int _ 5 (by norm_num) (by norm_num)
    norm_num [acmeTx, acmeInv, nameSim_acme_holdings_acme_corp, hsim, hp1, hp2]
  unfold match_by_invoice_reference
  rw [h1]
  dsimp only
  have h3 : findInvoiceById acmeRem.invoice_reference [acmeInv] = some acmeInv := by
    simp [findInvoiceById, acmeRem, acmeInv]
  rw [h3]
  dsimp only
  rw [h4]

/-- C5: on the Acme fixture the reference matcher succeeds with match type
"Exact" and confidence 99/100 (so at least 95%), and the orchestrator
returns the corresponding posting with confidence string "99%" and amount
difference 0.00. -/
theorem end_to_end_exact_match :
    match_by_invoice_reference acmeTx [acmeRem] [acmeInv] =
      some (acmeInv, acmeRem, "Exact", 99 / 100) ∧
    match_payment_to_invoice acmeTx [acmeRem] [acmeInv] = some
      { payment_ref := "TX-1", payer_name := "Acme Holdings", matched_invoice := "INV-100",
        match_type := "Exact", confidence := "99%", posting_status := "Auto-posted",
        bank_amount := some 1000, invoice_amount := some 1000,
        amount_difference := some 0 } ∧
    (95 / 100 : ℚ) ≤ 99 / 100 := by
  have h2 := ref_match_acme
  have hconf : toString (pyInt ((99 : ℚ) / 100 * 100)) ++ "%" = "99%" := by
    rw [pyInt_eq_of_eq_int _ 99 (by norm_num) (by norm_num)]
    decide
  refine ⟨h2, ?_, by norm_num⟩
  unfold match_payment_to_invoice
  rw [h2]
  dsimp only
  simp only [buildPosting, acmeTx, acmeInv, hconf]
  norm_num

/- ### C4 -/

/-- An invoice survives the two `continue` filters of the fuzzy loop:
not excluded and same currency. -/
def fuzzyOk (t : BankTransaction) (excl : List String) (inv : Invoice) : Bool :=
  decide (inv.invoice_id ∉ excl) && decide (t.currency = inv.currency)

/-- Loop invariant of `fuzzyLoop` over a processed prefix: either no
candidate has been adopted and every surviving processed invoice scored
at most 0.7, or the adopted candidate is a surviving processed invoice
carrying its own score (> 0.7) and type, it dominates every surviving
processed invoice, and it is the first surviving invoice attaining that
score. -/
def fuzzyInvariant (t : BankTransaction) (excl : List String)
    (processed : List Invoice) : Option (Invoice × String) × ℚ → Prop
  | (none, s) => s = 0 ∧
      ∀ j ∈ processed, fuzzyOk t excl j = true → combinedScore t j ≤ 0.7
  | (some (b, ty), s) =>
      b ∈ processed ∧ fuzzyOk t excl b = true ∧ s = combinedScore t b ∧ (0.7 : ℚ) < s ∧
      ty = fuzzyType t b ∧
      (∀ j ∈ processed, fuzzyOk t excl j = true → combinedScore t j ≤ s) ∧
      (processed.filter (fuzzyOk t excl)).find?
        (fun j => decide (s ≤ combinedScore t j)) = some b

theorem fuzzyInvariant_extend_skip (t : BankTransaction) (excl : List String)
    (processed : List Invoice) (st : Option (Invoice × String) × ℚ) (j : Invoice)
    (hst : fuzzyInvariant t excl processed st) (hj : fuzzyOk t excl j = false) :
    fuzzyInvariant t excl (processed ++ [j]) st := by
  obtain ⟨b, s⟩ := st
  cases b with
  | none =>
    obtain ⟨hs, hall⟩ := hst
    refine ⟨hs, fun x hx hok => ?_⟩
    rcases List.mem_append.mp hx with h | h
    · exact hall x h hok
    · rw [List.mem_singleton.mp h] at hok
      rw [hok] at hj
      cases hj
  | some bt =>
    obtain ⟨bv, ty⟩ := bt
    obtain ⟨hmem, hok, hs, hgt, hty, hall, hfind⟩ := hst
    refine ⟨List.mem_append_left _ hmem, hok, hs, hgt, hty, fun x hx hxok => ?_, ?_⟩
    · rcases List.mem_append.mp hx with h | h
      · exact hall x h hxok
      · rw [List.mem_singleton.mp h] at hxok
        rw [hxok] at hj
        cases hj
    · rw [List.filter_append]
      have : [j].filter (fuzzyOk t excl) = [] := by simp [hj]
      rw [this, List.append_nil]
      exact hfind

theorem fuzzyInvariant_update (t : BankTransaction) (excl : List String)
    (processed : List Invoice) (st : Option (Invoice × String) × ℚ) (j : Invoice)
    (hst : fuzzyInvariant t excl processed st) (hj : fuzzyOk t excl j = true)
    (hlt : st.2 < combinedScore t j) (hthr : (0.7 : ℚ) < combinedScore t j) :
    fuzzyInvariant t excl (processed ++ [j])
      (some (j, fuzzyType t j), combinedScore t j) := by
  have hprev : ∀ x ∈ processed, fuzzyOk t excl x = true →
      combinedScore t x < combinedScore t j := by
    intro x hx hok
    obtain ⟨b, s⟩ := st
    cases b with
    | none =>
      obtain ⟨hs, hall⟩ := hst
      have := hall x hx hok
      simp only at hlt
      calc combinedScore t x ≤ 0.7 := this
        _ < combinedScore t j := hthr
    | some bt =>
      obtain ⟨bv, ty⟩ := bt
      obtain ⟨-, -, -, -, -, hall, -⟩ := hst
      exact lt_of_le_of_lt (hall x hx hok) hlt
  refine ⟨List.mem_append_right _ (List.mem_singleton.mpr rfl), hj, rfl, hthr, rfl,
    fun x hx hxok => ?_, ?_⟩
  · rcases List.mem_append.mp hx with h | h
    · exact le_of_lt (hprev x h hxok)
    · rw [List.mem_singleton.mp h]
  · rw [List.filter_append, List.find?_append]
    have h1 : (processed.filter (fuzzyOk t excl)).find?
        (fun x => decide (combinedScore t j ≤ combinedScore t x)) = none := by
      rw [List.find?_eq_none]
      intro x hx
      obtain ⟨hxm, hxok⟩ := List.mem_filter.mp hx
      simpa using not_le.mpr (hprev x hxm hxok)
    rw [h1]
    simp [hj]

theorem fuzzyInvariant_no_update (t : BankTransaction) (excl : List String)
    (processed : List Invoice) (st : Option (Invoice × String) × ℚ) (j : Invoice)
    (hst : fuzzyInvariant t excl processed st) (_hj : fuzzyOk t excl j = true)
    (hno : ¬(st.2 < combinedScore t j ∧ (0.7 : ℚ) < combinedScore t j)) :
    fuzzyInvariant t excl (processed ++ [j]) st := by
  obtain ⟨b, s⟩ := st
  cases b with
  | none =>
    obtain ⟨hs, hall⟩ := hst
    subst hs
    refine ⟨rfl, fun x hx hok => ?_⟩
    rcases List.mem_append.mp hx with h | h
    · exact hall x h hok
    · rw [List.mem_singleton.mp h]
      by_contra hgt
      push_neg at hgt
      by_cases h0 : combinedScore t j ≤ 0
      · exact absurd (lt_of_lt_of_le hgt h0) (by norm_num)
      · exact hno ⟨by simpa using lt_of_not_le h0, hgt⟩
  | some bt =>
    obtain ⟨bv, ty⟩ := bt
    obtain ⟨hmem, hok, hs, hgt, hty, hall, hfind⟩ := hst
    have hjs : combinedScore t j ≤ s := by
      by_contra hc
      push_neg at hc
      exact hno ⟨by simpa using hc, lt_trans hgt hc⟩
    refine ⟨List.mem_append_left _ hmem, hok, hs, hgt, hty, fun x hx hxok => ?_, ?_⟩
    · rcases List.mem_append.mp hx with h | h
      · exact hall x h hxok
      · rw [List.mem_singleton.mp h]
        exact hjs
    · rw [List.filter_append, List.find?_append, hfind]
      rfl

theorem fuzzyLoop_invariant (t : BankTransaction) (excl : List String) :
    ∀ (l processed : List Invoice) (best : Option (Invoice × String)) (s : ℚ),
      fuzzyInvariant t excl processed (best, s) →
      fuzzyInvariant t excl (processed ++ l) (fuzzyLoop t excl l best s) := by
  intro l
  induction l with
  | nil =>
    intro processed best s h
    simpa [fuzzyLoop] using h
  | cons inv rest ih =>
    intro processed best s h
    rw [fuzzyLoop]
    have hassoc : processed ++ inv :: rest = (processed ++ [inv]) ++ rest := by
      simp
    by_cases hmem : inv.invoice_id ∈ excl
    · rw [if_pos hmem, hassoc]
      exact ih (processed ++ [inv]) best s
        (fuzzyInvariant_extend_skip t excl processed (best, s) inv h
          (by simp [fuzzyOk, hmem]))
    · rw [if_neg hmem]
      by_cases hcur : ¬ t.currency = inv.currency
      · rw [if_pos hcur, hassoc]
        exact ih (processed ++ [inv]) best s
          (fuzzyInvariant_extend_skip t excl processed (best, s) inv h
            (by simp [fuzzyOk, hcur]))
      · rw [if_neg hcur]
        push_neg at hcur
        have hok : fuzzyOk t excl inv = true := by simp [fuzzyOk, hmem, hcur]
        by_cases hupd : s < combinedScore t inv ∧ (0.7 : ℚ) < combinedScore t inv
        · rw [if_pos hupd, hassoc]
          exact ih (processed ++ [inv]) _ _
            (fuzzyInvariant_update t excl processed (best, s) inv h hok hupd.1 hupd.2)
        · rw [if_neg hupd, hassoc]
          exact ih (processed ++ [inv]) best s
            (fuzzyInvariant_no_update t excl processed (best, s) inv h hok hupd)

theorem fuzzy_match_invariant (t : BankTransaction) (invoices : List Invoice)
    (excl : List String) :
    fuzzyInvariant t excl invoices (fuzzyLoop t excl invoices none 0) := by
  have := fuzzyLoop_invariant t excl invoices [] none 0 (by exact ⟨rfl, by simp⟩)
  simpa using this

/-- C4: with no exclusions, `fuzzy_match` returns no match exactly when no
same-currency invoice scores above 0.7; a returned invoice is a
same-currency input invoice whose combined score (0.4·name + 0.6·amount)
exceeds 0.7, dominates every same-currency invoice, and is the first
same-currency invoice in input order attaining that maximum (so an equal
later score never replaces it), together with its match type and the
capped confidence. -/
theorem fuzzy_matcher_strict_best (t : BankTransaction) (invoices : List Invoice) :
    (fuzzy_match t invoices [] = none ↔
      ∀ inv ∈ invoices, t.currency = inv.currency → combinedScore t inv ≤ 0.7) ∧
    (∀ inv ty c, fuzzy_match t invoices [] = some (inv, ty, c) →
      inv ∈ invoices ∧ t.currency = inv.currency ∧ (0.7 : ℚ) < combinedScore t inv ∧
      (∀ j ∈ invoices, t.currency = j.currency →
        combinedScore t j ≤ combinedScore t inv) ∧
      (invoices.filter (fun j => decide (t.currency = j.currency))).find?
          (fun j => decide (combinedScore t inv ≤ combinedScore t j)) = some inv ∧
      ty = fuzzyType t inv ∧
      c = ((min 98 (pyInt (combinedScore t inv * 100)) : ℤ) : ℚ) / 100) := by
  have hinv := fuzzy_match_invariant t invoices []
  have hokeq : ∀ j : Invoice, fuzzyOk t [] j = decide (t.currency = j.currency) := by
    intro j
    simp [fuzzyOk]
  unfold fuzzy_match
  cases hres : fuzzyLoop t [] invoices none 0 with
  | mk b s =>
    rw [hres] at hinv
    cases b with
    | none =>
      obtain ⟨hs, hall⟩ := hinv
      constructor
      · constructor
        · intro _ inv hmem hcur
          exact hall inv hmem (by rw [hokeq]; exact decide_eq_true hcur)
        · intro _
          rfl
      · intro inv ty c hc
        cases hc
    | some bt =>
      obtain ⟨bv, bty⟩ := bt
      obtain ⟨hmem, hok, hs, hgt, hty, hall, hfind⟩ := hinv
      constructor
      · constructor
        · intro hc
          cases hc
        · intro hle
          rw [hs] at hgt
          exact absurd hgt (not_lt.mpr (hle bv hmem (by
            have := hokeq bv
            rw [this] at hok
            exact of_decide_eq_true hok)))
      · intro inv ty c hc
        rw [Option.some.injEq, Prod.mk.injEq, Prod.mk.injEq] at hc
        obtain ⟨he1, he2, he3⟩ := hc
        subst he1
        subst he2
        subst he3
        have hcur : t.currency = bv.currency := by
          rw [hokeq bv] at hok
          exact of_decide_eq_true hok
        subst hs
        refine ⟨hmem, hcur, hgt, ?_, ?_, hty, rfl⟩
        · intro j hj hjcur
          exact hall j hj (by rw [hokeq]; exact decide_eq_true hjcur)
        · rw [List.filter_congr (fun x _ => hokeq x)] at hfind
          exact hfind

/-- A second fixture transaction, for exercising the fuzzy matcher. -/
def acmeTx2 : BankTransaction :=
  { value_date := "2024-01-02", reference_no := "TX-2", description := "Wire",
    payer_name := "Acme", amount := 100, currency := "USD" }

/-- A second fixture invoice, matching `acmeTx2` on name and amount. -/
def acmeInv2 : Invoice :=
  { invoice_id := "INV-200", client_name := "Acme", matter_id := "M-2",
    invoice_date := "2024-01-02", invoice_amount := 100, currency := "USD",
    due_date := "2024-02-02", status := "Open" }

theorem nameSim_acme_acme : calculate_name_similarity "Acme" "Acme" = 1 := by
  have hn : normalize "Acme".toList = ['a', 'c', 'm', 'e'] := by decide
  have hm : matchingSizes ['a', 'c', 'm', 'e'] ['a', 'c', 'm', 'e'] 9 0 4 0 4 = 4 := by decide
  unfold calculate_name_similarity
  rw [hn, if_pos (Or.inl (List.infix_refl _))]
  simp only [smRatio]
  norm_num [hm, min_eq_left]

theorem fuzzy_on_acme2 :
    fuzzy_match acmeTx2 [acmeInv2] [] = some (acmeInv2, "Fuzzy (name)", 98 / 100) := by
  have hns : calculate_name_similarity acmeTx2.payer_name acmeInv2.client_name = 1 :=
    nameSim_acme_acme
  have hcs : combinedScore acmeTx2 acmeInv2 = 1 := by
    rw [combinedScore, hns]
    rw [show acmeTx2.amount = 100 from rfl, show acmeInv2.invoice_amount = 100 from rfl,
      amount_similarity_self]
    norm_num
  have hft : fuzzyType acmeTx2 acmeInv2 = "Fuzzy (name)" := by
    rw [fuzzyType]
    rw [show acmeTx2.amount = 100 from rfl, show acmeInv2.invoice_amount = 100 from rfl]
    rw [if_pos (by rw [hns, amount_similarity_self]; norm_num)]
  have hloop : fuzzyLoop acmeTx2 [] [acmeInv2] none 0 =
      (some (acmeInv2, "Fuzzy (name)"), 1) := by
    rw [fuzzyLoop, if_neg (List.not_mem_nil _), if_neg (by simp [acmeTx2, acmeInv2])]
    dsimp only
    rw [hcs, if_pos (by norm_num), hft, fuzzyLoop]
  unfold fuzzy_match
  rw [hloop]
  dsimp only
  rw [show (1 : ℚ) * 100 = 100 by norm_num,
    pyInt_eq_of_eq_int (100 : ℚ) 100 (by norm_num) (by norm_num)]
  norm_num

/-- C4 witness: the general theorem applied to the `acmeTx2`/`acmeInv2`
fixture, on which the fuzzy matcher returns the invoice with match type
"Fuzzy (name)". -/
theorem fuzzy_matcher_strict_best_witness :
    acmeInv2 ∈ [acmeInv2] ∧ acmeTx2.currency = acmeInv2.currency ∧
      (0.7 : ℚ) < combinedScore acmeTx2 acmeInv2 ∧
      "Fuzzy (name)" = fuzzyType acmeTx2 acmeInv2 := by
  have h := (fuzzy_matcher_strict_best acmeTx2 [acmeInv2]).2 acmeInv2 "Fuzzy (name)"
    (98 / 100) fuzzy_on_acme2
  exact ⟨h.1, h.2.1, h.2.2.1, h.2.2.2.2.2.1⟩

/- ### C8 -/

/-- Replace an invoice's currency. -/
def setCurrency (inv : Invoice) (c : String) : Invoice :=
  { inv with currency := c }

/-- Forget an invoice's currency (for comparing results up to currency). -/
def eraseCurrency (inv : Invoice) : Invoice :=
  { inv with currency := "" }

theorem findMatchingRemittance_congr (t t' : BankTransaction)
    (h1 : t'.payer_name = t.payer_name) (h2 : t'.amount = t.amount) :
    ∀ l, findMatchingRemittance t' l = findMatchingRemittance t l := by
  intro l
  induction l with
  | nil => rfl
  | cons r rs ih => simp only [findMatchingRemittance, h1, h2, ih]

theorem findInvoiceById_zipWith (ref : String) :
    ∀ (invs : List Invoice) (cs : List String), cs.length = invs.length →
      (findInvoiceById ref (List.zipWith setCurrency invs cs) = none ↔
        findInvoiceById ref invs = none) ∧
      (∀ inv', findInvoiceById ref (List.zipWith setCurrency invs cs) = some inv' →
        ∃ inv c', findInvoiceById ref invs = some inv ∧ inv' = setCurrency inv c') := by
  intro invs
  induction invs with
  | nil =>
    intro cs h
    rw [List.length_nil, List.length_eq_zero] at h
    subst h
    exact ⟨Iff.rfl, fun inv' h' => by cases h'⟩
  | cons inv rest ih =>
    intro cs h
    cases cs with
    | nil => cases h
    | cons c' cs' =>
      simp only [List.length_cons, Nat.succ_inj] at h
      rw [List.zipWith_cons_cons]
      by_cases hid : inv.invoice_id = ref
      · constructor
        · rw [findInvoiceById, findInvoiceById]
          rw [if_pos (show (setCurrency inv c').invoice_id = ref from hid), if_pos hid]
          simp
        · intro inv' h'
          rw [findInvoiceById, if_pos (show (setCurrency inv c').invoice_id = ref from hid)]
            at h'
          refine ⟨inv, c', ?_, (Option.some.injEq _ _).mp h'.symm⟩
          rw [findInvoiceById, if_pos hid]
      · obtain ⟨ih1, ih2⟩ := ih cs' h
        constructor
        · rw [findInvoiceById, findInvoiceById]
          rw [if_neg (show ¬ (setCurrency inv c').invoice_id = ref from hid), if_neg hid]
          exact ih1
        · intro inv' h'
          rw [findInvoiceById, if_neg (show ¬ (setCurrency inv c').invoice_id = ref from hid)]
            at h'
          obtain ⟨i0, c0, hi0, he⟩ := ih2 inv' h'
          refine ⟨i0, c0, ?_, he⟩
          rw [findInvoiceById, if_neg hid]
          exact hi0

theorem refClassify_congr (t t' : BankTransaction) (inv inv' : Invoice)
    (h1 : t'.payer_name = t.payer_name) (h2 : t'.amount = t.amount)
    (h3 : inv'.client_name = inv.client_name)
    (h4 : inv'.invoice_amount = inv.invoice_amount) :
    refClassify t' inv' = refClassify t inv := by
  unfold refClassify
  rw [h1, h2, h3, h4]

/-- C8: the reference matcher never reads a currency field: changing the
transaction's currency and each invoice's currency (any reassignment of
the same length) yields the same selected invoice (up to its rewritten
currency field), the same remittance, the same match type, and the same
confidence — and consequently, unlike the fuzzy matcher, it can match a
payment to an invoice whose currency differs from the transaction's. -/
theorem reference_matcher_currency_blind (t : BankTransaction)
    (remittances : List Remittance) (invoices : List Invoice) (c : String)
    (cs : List String) (hlen : cs.length = invoices.length) :
    ((match_by_invoice_reference { t with currency := c } remittances
        (List.zipWith setCurrency invoices cs)).map
        (fun x => (eraseCurrency x.1, x.2.1, x.2.2.1, x.2.2.2)) =
      (match_by_invoice_reference t remittances invoices).map
        (fun x => (eraseCurrency x.1, x.2.1, x.2.2.1, x.2.2.2))) ∧
    (∃ (t' : BankTransaction) (rems' : List Remittance) (invs' : List Invoice)
        (inv : Invoice) (rem : Remittance) (ty : String) (cf : ℚ),
      match_by_invoice_reference t' rems' invs' = some (inv, rem, ty, cf) ∧
      inv.currency ≠ t'.currency) := by
  constructor
  · unfold match_by_invoice_reference
    rw [findMatchingRemittance_congr t { t with currency := c } rfl rfl]
    cases hr : findMatchingRemittance t remittances with
    | none => rfl
    | some rem =>
      dsimp only
      obtain ⟨hz1, hz2⟩ := findInvoiceById_zipWith rem.invoice_reference invoices cs hlen
      cases hi : findInvoiceById rem.invoice_reference invoices with
      | none =>
        rw [hz1.mpr hi]
      | some inv =>
        cases hi' : findInvoiceById rem.invoice_reference
            (List.zipWith setCurrency invoices cs) with
        | none =>
          have hcontra := hz1.mp hi'
          rw [hi] at hcontra
          cases hcontra
        | some inv' =>
          obtain ⟨i0, c0, hi0, he⟩ := hz2 inv' hi'
          rw [hi0] at hi
          injection hi with hi
          subst hi
          subst he
          dsimp only
          rw [refClassify_congr t { t with currency := c } i0 (setCurrency i0 c0)
            rfl rfl rfl rfl]
          rfl
  · refine ⟨{ acmeTx with currency := "EUR" }, [acmeRem], [acmeInv], acmeInv, acmeRem,
      "Exact", 99 / 100, ?_, by decide⟩
    have hacme := ref_match_acme
    unfold match_by_invoice_reference at hacme ⊢
    rw [findMatchingRemittance_congr acmeTx { acmeTx with currency := "EUR" } rfl rfl]
    exact hacme

/-- C8 witness: the independence equation applied at a concrete input,
with the transaction moved to EUR and the invoice to JPY. -/
theorem reference_matcher_currency_blind_witness :
    (match_by_invoice_reference { acmeTx with currency := "EUR" } [acmeRem]
        (List.zipWith setCurrency [acmeInv] ["JPY"])).map
      (fun x => (eraseCurrency x.1, x.2.1, x.2.2.1, x.2.2.2)) =
    (match_by_invoice_reference acmeTx [acmeRem] [acmeInv]).map
      (fun x => (eraseCurrency x.1, x.2.1, x.2.2.1, x.2.2.2)) :=
  (reference_matcher_currency_blind acmeTx [acmeRem] [acmeInv] "EUR" ["JPY"] rfl).1

/- ### C9 -/

theorem smRatio_nonneg (a b : List Char) : 0 ≤ smRatio a b := by
  unfold smRatio
  split_ifs with h
  · norm_num
  · positivity

theorem name_similarity_nonneg (n1 n2 : String) :
    0 ≤ calculate_name_similarity n1 n2 := by
  unfold calculate_name_similarity
  dsimp only
  split_ifs with h
  · have := smRatio_nonneg (normalize n1.toList) (normalize n2.toList)
    exact le_min (by norm_num) (by linarith)
  · exact smRatio_nonneg _ _

theorem pyInt_nonneg (q : ℚ) (h : 0 ≤ q) : 0 ≤ pyInt q := by
  rw [pyInt, if_neg (not_lt.mpr h)]
  exact Int.floor_nonneg.mpr h

theorem le_pyInt (q : ℚ) (m : ℤ) (h0 : 0 ≤ q) (h : (m : ℚ) ≤ q) : m ≤ pyInt q := by
  rw [pyInt, if_neg (not_lt.mpr h0)]
  exact Int.le_floor.mpr h

theorem refClassify_exact (t : BankTransaction) (inv : Invoice)
    (h : (0.95 : ℚ) < calculate_amount_similarity t.amount inv.invoice_amount) :
    refClassify t inv = ("Exact",
      ((min 99 (85 + pyInt (calculate_amount_similarity t.amount inv.invoice_amount * 10)
        + pyInt (calculate_name_similarity t.payer_name inv.client_name * 5)) : ℤ) : ℚ)
        / 100) := by
  unfold refClassify
  rw [if_pos h]

theorem refClassify_not_exact (t : BankTransaction) (inv : Invoice)
    (h : ¬ (0.95 : ℚ) < calculate_amount_similarity t.amount inv.invoice_amount) :
    refClassify t inv = ("Reference",
      ((min 98 (80 + pyInt (calculate_amount_similarity t.amount inv.invoice_amount * 10)
        + pyInt (calculate_name_similarity t.payer_name inv.client_name * 5)) : ℤ) : ℚ)
        / 100) := by
  unfold refClassify
  rw [if_neg h]

theorem refClassify_conf_bounds (t : BankTransaction) (inv : Invoice) :
    ∃ cn : ℤ, (refClassify t inv).2 = (cn : ℚ) / 100 ∧
      ((refClassify t inv).1 = "Exact" → 94 ≤ cn ∧ cn ≤ 99) ∧
      ((refClassify t inv).1 = "Reference" → 80 ≤ cn ∧ cn ≤ 98) ∧
      80 ≤ cn ∧ cn ≤ 99 := by
  have hns := name_similarity_nonneg t.payer_name inv.client_name
  have has := calculate_amount_similarity_nonneg t.amount inv.invoice_amount
  have hn5 : (0 : ℤ) ≤ pyInt (calculate_name_similarity t.payer_name inv.client_name * 5) :=
    pyInt_nonneg _ (mul_nonneg hns (by norm_num))
  have ha10 : (0 : ℤ) ≤
      pyInt (calculate_amount_similarity t.amount inv.invoice_amount * 10) :=
    pyInt_nonneg _ (mul_nonneg has (by norm_num))
  by_cases h : (0.95 : ℚ) < calculate_amount_similarity t.amount inv.invoice_amount
  · rw [refClassify_exact t inv h]
    have h9 : (9 : ℤ) ≤
        pyInt (calculate_amount_similarity t.amount inv.invoice_amount * 10) := by
      refine le_pyInt _ 9 (mul_nonneg has (by norm_num)) ?_
      push_cast
      nlinarith
    refine ⟨min 99 (85 + pyInt (calculate_amount_similarity t.amount inv.invoice_amount * 10)
      + pyInt (calculate_name_similarity t.payer_name inv.client_name * 5)), rfl, ?_, ?_, ?_, ?_⟩
    · intro _
      exact ⟨le_min (by norm_num) (by omega), min_le_left _ _⟩
    · intro hco
      have hco' : ("Exact" : String) = "Reference" := hco
      exact absurd hco' (by decide)
    · exact le_min (by norm_num) (by omega)
    · exact min_le_left _ _
  · rw [refClassify_not_exact t inv h]
    refine ⟨min 98 (80 + pyInt (calculate_amount_similarity t.amount inv.invoice_amount * 10)
      + pyInt (calculate_name_similarity t.payer_name inv.client_name * 5)), rfl, ?_, ?_, ?_, ?_⟩
    · intro hco
      have hco' : ("Reference" : String) = "Exact" := hco
      exact absurd hco' (by decide)
    · intro _
      exact ⟨le_min (by norm_num) (by omega), min_le_left _ _⟩
    · exact le_min (by norm_num) (by omega)
    · exact le_trans (min_le_left _ _) (by norm_num)

theorem match_by_ref_some (t : BankTransaction) (rems : List Remittance)
    (invs : List Invoice) (inv : Invoice) (rem : Remittance) (ty : String) (cf : ℚ)
    (h : match_by_invoice_reference t rems invs = some (inv, rem, ty, cf)) :
    ty = (refClassify t inv).1 ∧ cf = (refClassify t inv).2 := by
  unfold match_by_invoice_reference at h
  cases hr : findMatchingRemittance t rems with
  | none =>
    rw [hr] at h
    cases h
  | some r =>
    rw [hr] at h
    dsimp only at h
    cases hi : findInvoiceById r.invoice_reference invs with
    | none =>
      rw [hi] at h
      cases h
    | some i =>
      rw [hi] at h
      dsimp only at h
      rw [Option.some.injEq, Prod.mk.injEq, Prod.mk.injEq, Prod.mk.injEq] at h
      obtain ⟨h1, _, h3, h4⟩ := h
      subst h1
      exact ⟨h3.symm, h4.symm⟩

theorem fuzzy_conf_bounds (t : BankTransaction) (invs : List Invoice)
    (excl : List String) (inv : Invoice) (ty : String) (c : ℚ)
    (h : fuzzy_match t invs excl = some (inv, ty, c)) :
    ∃ cn : ℤ, c = (cn : ℚ) / 100 ∧ 70 ≤ cn ∧ cn ≤ 98 := by
  have hinv := fuzzy_match_invariant t invs excl
  unfold fuzzy_match at h
  cases hres : fuzzyLoop t excl invs none 0 with
  | mk b s =>
    rw [hres] at h hinv
    cases b with
    | none => cases h
    | some bt =>
      obtain ⟨bv, bty⟩ := bt
      obtain ⟨-, -, -, hgt, -, -, -⟩ := hinv
      rw [Option.some.injEq, Prod.mk.injEq, Prod.mk.injEq] at h
      obtain ⟨-, -, h3⟩ := h
      refine ⟨min 98 (pyInt (s * 100)), h3.symm, ?_, min_le_left _ _⟩
      have h70 : (70 : ℤ) ≤ pyInt (s * 100) := by
        refine le_pyInt _ 70 (by nlinarith) ?_
        push_cast
        nlinarith
      exact le_min (by norm_num) h70

theorem buildPosting_confidence (t : BankTransaction) (inv : Invoice) (ty : String)
    (cn : ℤ) (h0 : 0 ≤ cn) :
    (buildPosting t inv ty ((cn : ℚ) / 100)).confidence = toString cn ++ "%" := by
  unfold buildPosting
  have h1 : (cn : ℚ) / 100 * 100 = (cn : ℚ) := by
    field_simp
  rw [h1, pyInt_eq_of_eq_int _ cn rfl h0]

/-- C9: every posting produced by the orchestrator carries a confidence
string "c%" with c an integer between 70 and 99; the reference path's
"Exact" classification yields 94 ≤ c ≤ 99, its "Reference" classification
80 ≤ c ≤ 98, and the fuzzy path 70 ≤ c ≤ 98 (eligibility demands a
combined score above 0.7 and the cap is 98). -/
theorem orchestrator_confidence_bounds (t : BankTransaction)
    (rems : List Remittance) (invs : List Invoice) :
    (∀ p, match_payment_to_invoice t rems invs = some p →
      ∃ cn : ℤ, p.confidence = toString cn ++ "%" ∧ 70 ≤ cn ∧ cn ≤ 99) ∧
    (∀ inv rem cf, match_by_invoice_reference t rems invs = some (inv, rem, "Exact", cf) →
      ∃ cn : ℤ, cf = (cn : ℚ) / 100 ∧ 94 ≤ cn ∧ cn ≤ 99) ∧
    (∀ inv rem cf,
      match_by_invoice_reference t rems invs = some (inv, rem, "Reference", cf) →
      ∃ cn : ℤ, cf = (cn : ℚ) / 100 ∧ 80 ≤ cn ∧ cn ≤ 98) ∧
    (∀ inv ty cf, fuzzy_match t invs [] = some (inv, ty, cf) →
      ∃ cn : ℤ, cf = (cn : ℚ) / 100 ∧ 70 ≤ cn ∧ cn ≤ 98) := by
  refine ⟨?_, ?_, ?_, fun inv ty cf h => fuzzy_conf_bounds t invs [] inv ty cf h⟩
  · intro p hp
    unfold match_payment_to_invoice at hp
    cases hr : match_by_invoice_reference t rems invs with
    | some x =>
      obtain ⟨inv, rem, ty, cf⟩ := x
      rw [hr] at hp
      dsimp only at hp
      obtain ⟨-, hcf⟩ := match_by_ref_some t rems invs inv rem ty cf hr
      obtain ⟨cn, hcn, -, -, hlo, hhi⟩ := refClassify_conf_bounds t inv
      rw [Option.some.injEq] at hp
      subst hp
      rw [hcf, hcn]
      exact ⟨cn, buildPosting_confidence t inv ty cn (by omega), by omega, hhi⟩
    | none =>
      rw [hr] at hp
      dsimp only at hp
      cases hf : fuzzy_match t invs [] with
      | some y =>
        obtain ⟨inv, ty, cf⟩ := y
        rw [hf] at hp
        dsimp only at hp
        obtain ⟨cn, hcn, hlo, hhi⟩ := fuzzy_conf_bounds t invs [] inv ty cf hf
        rw [Option.some.injEq] at hp
        subst hp
        rw [hcn]
        exact ⟨cn, buildPosting_confidence t inv ty cn (by omega), hlo, by omega⟩
      | none =>
        rw [hf] at hp
        cases hp
  · intro inv rem cf h
    obtain ⟨hty, hcf⟩ := match_by_ref_some t rems invs inv rem "Exact" cf h
    obtain ⟨cn, hcn, hex, -, -, -⟩ := refClassify_conf_bounds t inv
    exact ⟨cn, by rw [hcf, hcn], hex hty.symm⟩
  · intro inv rem cf h
    obtain ⟨hty, hcf⟩ := match_by_ref_some t rems invs inv rem "Reference" cf h
    obtain ⟨cn, hcn, -, href, -, -⟩ := refClassify_conf_bounds t inv
    exact ⟨cn, by rw [hcf, hcn], href hty.symm⟩

/-- C9 witness: the Exact-path bound applied to the Acme fixture, whose
reference match carries confidence 99/100. -/
theorem orchestrator_confidence_bounds_witness :
    ∃ cn : ℤ, (99 / 100 : ℚ) = (cn : ℚ) / 100 ∧ 94 ≤ cn ∧ cn ≤ 99 :=
  (orchestrator_confidence_bounds acmeTx [acmeRem] [acmeInv]).2.1 acmeInv acmeRem
    (99 / 100) ref_match_acme

/- ### C10 -/

theorem mem_charPositions {b : List Char} {c : Char} {j : Nat} :
    j ∈ charPositions b c ↔ j < b.length ∧ b[j]? = some c := by
  simp [charPositions, List.mem_filter, List.mem_range]

theorem b2j_eq_nil_or (b : List Char) (c : Char) :
    b2j b c = [] ∨ b2j b c = charPositions b c := by
  unfold b2j
  dsimp only
  split_ifs <;> simp

theorem b2j_of_mem {b : List Char} {c : Char} {j : Nat} (h : j ∈ b2j b c) :
    b2j b c = charPositions b c := by
  rcases b2j_eq_nil_or b c with h' | h'
  · rw [h'] at h
    cases h
  · exact h'

theorem mem_b2j {b : List Char} {c : Char} {j : Nat} (h : j ∈ b2j b c) :
    j < b.length ∧ b[j]? = some c :=
  mem_charPositions.mp (b2j_of_mem h ▸ h)

theorem b2j_pairwise (b : List Char) (c : Char) : (b2j b c).Pairwise (· < ·) := by
  rcases b2j_eq_nil_or b c with h | h <;> rw [h]
  · exact List.Pairwise.nil
  · exact (List.pairwise_lt_range _).sublist (List.filter_sublist _) |>.imp id

/-- A main-loop hit of `find_longest_match` on the pair `(a, a)`: the
character at row `i` exists and column `j` lies in its (autojunk-purged)
`b2j` list. -/
def keptMatch (a : List Char) (i j : Nat) : Bool :=
  match a[i]? with
  | some c => (b2j a c).contains j
  | none => false

/-- Length of the `j2len` run ending at row `i`, column `j`, for the pair
`(a, a)`: the value the main loop stores in `newj2len[j]`. -/
def klen (a : List Char) : Nat → Nat → Nat
  | 0, j => if keptMatch a 0 j then 1 else 0
  | i + 1, j =>
    if keptMatch a (i + 1) j then (if j = 0 then 1 else klen a i (j - 1) + 1) else 0

/-- The `j2len` map at the start of row `i`: empty before row 0, else the
previous row's run lengths. -/
def prevRow (a : List Char) : Nat → Nat → Nat
  | 0, _ => 0
  | i + 1, x => klen a i x

theorem keptMatch_iff {a : List Char} {i j : Nat} :
    keptMatch a i j = true ↔ ∃ c, a[i]? = some c ∧ j ∈ b2j a c := by
  unfold keptMatch
  cases h : a[i]? with
  | none => simp
  | some c => simp [List.contains, List.elem_iff]

theorem keptMatch_props {a : List Char} {i j : Nat} (h : keptMatch a i j = true) :
    i < a.length ∧ j < a.length ∧ keptMatch a i i = true ∧ keptMatch a j j = true := by
  obtain ⟨c, hi, hj⟩ := keptMatch_iff.mp h
  obtain ⟨hjl, hjc⟩ := mem_b2j hj
  have hil : i < a.length := by
    rcases List.getElem?_eq_some.mp hi with ⟨hlt, -⟩
    exact hlt
  have hmemi : i ∈ b2j a c := by
    rw [b2j_of_mem hj]
    exact mem_charPositions.mpr ⟨hil, hi⟩
  refine ⟨hil, hjl, ?_, ?_⟩
  · exact keptMatch_iff.mpr ⟨c, hi, hmemi⟩
  · exact keptMatch_iff.mpr ⟨c, hjc, hj⟩

theorem klen_zero_of_not_kept {a : List Char} {i j : Nat}
    (h : ¬ keptMatch a i j = true) : klen a i j = 0 := by
  cases i <;> simp [klen, h]

theorem klen_diag_kept {a : List Char} {m : Nat} (h : keptMatch a m m = true) :
    1 ≤ klen a m m := by
  cases m with
  | zero => simp [klen, h]
  | succ m' =>
    rw [klen, if_pos h]
    split_ifs <;> omega

/-- Diagonal dominance: a run ending at `(i, j)` is no longer than the
aligned run ending at `(min i j, min i j)`. -/
theorem klen_le_diag (a : List Char) : ∀ i j, klen a i j ≤ klen a (min i j) (min i j) := by
  intro i
  induction i with
  | zero =>
    intro j
    by_cases h : keptMatch a 0 j = true
    · obtain ⟨-, -, h00, -⟩ := keptMatch_props h
      simp [klen, h, Nat.zero_min, h00]
    · simp [klen, h]
  | succ i' ih =>
    intro j
    by_cases h : keptMatch a (i' + 1) j = true
    · obtain ⟨-, -, hii, hjj⟩ := keptMatch_props h
      cases j with
      | zero =>
        rw [klen, if_pos h, if_pos rfl]
        have : min (i' + 1) 0 = 0 := Nat.min_zero _
        rw [this]
        exact klen_diag_kept hjj
      | succ j' =>
        rw [klen, if_pos h, if_neg (Nat.succ_ne_zero j')]
        have hmin : min (i' + 1) (j' + 1) = min i' j' + 1 := Nat.succ_min_succ i' j'
        rw [hmin]
        have hkmin : keptMatch a (min i' j' + 1) (min i' j' + 1) = true := by
          rcases min_choice i' j' with hm | hm <;> rw [hm]
          · exact hii
          · exact hjj
        rw [klen, if_pos hkmin, if_neg (Nat.succ_ne_zero _)]
        have := ih j'
        simp only [Nat.add_sub_cancel]
        omega
    · rw [klen, if_neg h]
      exact Nat.zero_le _

/-- A run ending at row `i` has length at most `i + 1`. -/
theorem klen_le_succ (a : List Char) : ∀ i j, klen a i j ≤ i + 1 := by
  intro i
  induction i with
  | zero =>
    intro j
    rw [klen]
    split_ifs <;> omega
  | succ i' ih =>
    intro j
    rw [klen]
    split_ifs with h1 h2
    · omega
    · have := ih (j - 1)
      omega
    · omega

/-- Invariant of the inner (column) loop at row `i` on the pair `(a, a)`,
relative to the processed column prefix `done`: the best block is on the
main diagonal, its size dominates every finished aligned run and the
current row's run once column `i` is past, the block fits inside the
sequence, and `newj2len` holds exactly the runs of the processed columns. -/
def rowInv (a : List Char) (i : Nat) (done : List Nat) (st : FlmState) : Prop :=
  st.besti = st.bestj ∧ (∀ r < i, klen a r r ≤ st.bestsize) ∧
    (i ∈ done → klen a i i ≤ st.bestsize) ∧ st.besti + st.bestsize ≤ a.length ∧
    (∀ x, st.j2len x = if x ∈ done then klen a i x else 0)

theorem flmInner_k (a : List Char) (old : Nat → Nat) (i j : Nat)
    (hold : ∀ x, old x = prevRow a i x) (hkept : keptMatch a i j = true) :
    (if j = 0 then 0 else old (j - 1)) + 1 = klen a i j := by
  cases i with
  | zero =>
    cases j with
    | zero => simp [klen, hkept]
    | succ j' => simp [klen, hkept, hold, prevRow]
  | succ i' =>
    cases j with
    | zero => simp [klen, hkept]
    | succ j' => simp [klen, hkept, hold, prevRow]

theorem flmInner_step (a : List Char) (i : Nat) (hi : i < a.length) (c : Char)
    (hc : a[i]? = some c) (old : Nat → Nat) (hold : ∀ x, old x = prevRow a i x)
    (done rest' : List Nat) (j : Nat) (hsplit : b2j a c = done ++ j :: rest')
    (st : FlmState) (hst : rowInv a i done st) :
    rowInv a i (done ++ [j]) (flmInner old i st j) := by
  obtain ⟨hQ1, hQ2, hQ3, hQ4, hQ5⟩ := hst
  have hpair := b2j_pairwise a c
  rw [hsplit] at hpair
  have hdone_lt : ∀ x ∈ done, x < j := fun x hx =>
    (List.pairwise_append.mp hpair).2.2 x hx j (List.mem_cons_self _ _)
  have hj_not_done : j ∉ done := fun hj => lt_irrefl j (hdone_lt j hj)
  have hj_mem : j ∈ b2j a c := by
    rw [hsplit]
    exact List.mem_append_right _ (List.mem_cons_self _ _)
  have hkept : keptMatch a i j = true := keptMatch_iff.mpr ⟨c, hc, hj_mem⟩
  have hk := flmInner_k a old i j hold hkept
  unfold flmInner
  dsimp only
  rw [hk]
  split_ifs with hup
  · have hji : j = i := by
      rcases lt_trichotomy j i with hlt | heq | hgt
      · exfalso
        have h1 := klen_le_diag a i j
        rw [min_eq_right (le_of_lt hlt)] at h1
        have h2 := hQ2 j hlt
        omega
      · exact heq
      · exfalso
        have hkii : keptMatch a i i = true := (keptMatch_props hkept).2.2.1
        have hi_mem : i ∈ b2j a c := by
          obtain ⟨c', hc', hm⟩ := keptMatch_iff.mp hkii
          rw [hc] at hc'
          obtain rfl : c = c' := (Option.some.injEq _ _).mp hc'
          exact hm
        have hi_done : i ∈ done := by
          rw [hsplit] at hi_mem
          rcases List.mem_append.mp hi_mem with h | h
          · exact h
          · rcases List.mem_cons.mp h with h' | h'
            · omega
            · have hp2 := (List.pairwise_append.mp hpair).2.1
              have hlt2 := (List.pairwise_cons.mp hp2).1 i h'
              omega
        have h1 := klen_le_diag a i j
        rw [min_eq_left (le_of_lt hgt)] at h1
        have h2 := hQ3 hi_done
        omega
    subst hji
    unfold rowInv
    dsimp only
    refine ⟨rfl, ?_, ?_, ?_, ?_⟩
    · intro r hr
      exact le_trans (hQ2 r hr) (le_of_lt hup)
    · intro _
      exact le_refl _
    · have hle := klen_le_succ a j j
      omega
    · intro x
      by_cases hx : x = j
      · subst hx
        simp
      · rw [if_neg hx, hQ5 x]
        by_cases hxd : x ∈ done
        · rw [if_pos hxd, if_pos (List.mem_append_left _ hxd)]
        · rw [if_neg hxd, if_neg (by
            intro hmem
            rcases List.mem_append.mp hmem with h | h
            · exact hxd h
            · exact hx (List.mem_singleton.mp h))]
  · unfold rowInv
    dsimp only
    refine ⟨hQ1, hQ2, ?_, hQ4, ?_⟩
    · intro hmem
      rcases List.mem_append.mp hmem with h | h
      · exact hQ3 h
      · have hij : i = j := List.mem_singleton.mp h
        subst hij
        exact not_lt.mp hup
    · intro x
      by_cases hx : x = j
      · subst hx
        simp [hkept]
      · rw [if_neg hx, hQ5 x]
        by_cases hxd : x ∈ done
        · rw [if_pos hxd, if_pos (List.mem_append_left _ hxd)]
        · rw [if_neg hxd, if_neg (by
            intro hmem
            rcases List.mem_append.mp hmem with h | h
            · exact hxd h
            · exact hx (List.mem_singleton.mp h))]

theorem flmInner_fold (a : List Char) (i : Nat) (hi : i < a.length) (c : Char)
    (hc : a[i]? = some c) (old : Nat → Nat) (hold : ∀ x, old x = prevRow a i x) :
    ∀ (rest done : List Nat), b2j a c = done ++ rest →
      ∀ st, rowInv a i done st →
        rowInv a i (done ++ rest) (rest.foldl (flmInner old i) st) := by
  intro rest
  induction rest with
  | nil =>
    intro done hsplit st hst
    simpa using hst
  | cons j rest' ih =>
    intro done hsplit st hst
    rw [List.foldl_cons]
    have hstep := flmInner_step a i hi c hc old hold done rest' j hsplit st hst
    have hsplit' : b2j a c = (done ++ [j]) ++ rest' := by
      rw [hsplit]
      simp
    have hres := ih (done ++ [j]) hsplit' (flmInner old i st j) hstep
    rw [show (done ++ [j]) ++ rest' = done ++ j :: rest' from by simp] at hres
    exact hres

theorem takeWhile_all {α : Type} (p : α → Bool) :
    ∀ l : List α, (∀ x ∈ l, p x = true) → l.takeWhile p = l := by
  intro l
  induction l with
  | nil => intro _; rfl
  | cons x xs ih =>
    intro h
    rw [List.takeWhile_cons, h x (List.mem_cons_self _ _)]
    rw [ih (fun y hy => h y (List.mem_cons_of_mem x hy))]
    rw [if_pos rfl]

theorem flmRow_step (a : List Char) (st : FlmState) (i : Nat) (hi : i < a.length)
    (hQ1 : st.besti = st.bestj) (hQ2 : ∀ r < i, klen a r r ≤ st.bestsize)
    (hQ4 : st.besti + st.bestsize ≤ a.length)
    (hold : ∀ x, st.j2len x = prevRow a i x) :
    (flmRow a a 0 a.length st i).besti = (flmRow a a 0 a.length st i).bestj ∧
      (∀ r < i + 1, klen a r r ≤ (flmRow a a 0 a.length st i).bestsize) ∧
      (flmRow a a 0 a.length st i).besti + (flmRow a a 0 a.length st i).bestsize ≤
        a.length ∧
      (∀ x, (flmRow a a 0 a.length st i).j2len x = klen a i x) := by
  obtain ⟨c, hc⟩ : ∃ c, a[i]? = some c := by
    cases h : a[i]? with
    | none =>
      rw [List.getElem?_eq_none_iff] at h
      omega
    | some c => exact ⟨c, rfl⟩
  have hjs : ((b2j a c).filter (fun j => decide (0 ≤ j))).takeWhile
      (fun j => decide (j < a.length)) = b2j a c := by
    have h1 : (b2j a c).filter (fun j => decide (0 ≤ j)) = b2j a c :=
      List.filter_eq_self.mpr (fun x _ => by simp)
    rw [h1]
    exact takeWhile_all _ _ (fun x hx => by
      simp only [decide_eq_true_eq]
      exact (mem_b2j hx).1)
  have hrow : flmRow a a 0 a.length st i =
      (b2j a c).foldl (flmInner st.j2len i) { st with j2len := fun _ => 0 } := by
    unfold flmRow
    rw [hc]
    dsimp only
    rw [hjs]
  have hinit : rowInv a i [] { st with j2len := fun _ => 0 } := by
    refine ⟨hQ1, hQ2, fun h => absurd h (List.not_mem_nil i), hQ4, fun x => by simp⟩
  have hfold := flmInner_fold a i hi c hc st.j2len hold (b2j a c) [] rfl _ hinit
  rw [List.nil_append] at hfold
  rw [hrow]
  obtain ⟨f1, f2, f3, f4, f5⟩ := hfold
  have hknot : ∀ x, x ∉ b2j a c → klen a i x = 0 := by
    intro x hx
    refine klen_zero_of_not_kept ?_
    intro hkept
    obtain ⟨c', hc', hm⟩ := keptMatch_iff.mp hkept
    rw [hc] at hc'
    obtain rfl : c = c' := (Option.some.injEq _ _).mp hc'
    exact hx hm
  refine ⟨f1, ?_, f4, ?_⟩
  · intro r hr
    rcases Nat.lt_succ_iff_lt_or_eq.mp hr with h | h
    · exact f2 r h
    · subst h
      by_cases hmem : r ∈ b2j a c
      · exact f3 hmem
      · rw [hknot r hmem]
        exact Nat.zero_le _
  · intro x
    rw [f5 x]
    by_cases hmem : x ∈ b2j a c
    · rw [if_pos hmem]
    · rw [if_neg hmem, hknot x hmem]

theorem flmLoop_aligned (a : List Char) :
    (flmLoop a a 0 a.length 0 a.length).besti = (flmLoop a a 0 a.length 0 a.length).bestj ∧
      (flmLoop a a 0 a.length 0 a.length).besti +
        (flmLoop a a 0 a.length 0 a.length).bestsize ≤ a.length := by
  suffices h : ∀ m, m ≤ a.length →
      ((List.range' 0 m).foldl (flmRow a a 0 a.length)
        ⟨0, 0, 0, fun _ => 0⟩).besti =
        ((List.range' 0 m).foldl (flmRow a a 0 a.length) ⟨0, 0, 0, fun _ => 0⟩).bestj ∧
      (∀ r < m, klen a r r ≤
        ((List.range' 0 m).foldl (flmRow a a 0 a.length) ⟨0, 0, 0, fun _ => 0⟩).bestsize) ∧
      ((List.range' 0 m).foldl (flmRow a a 0 a.length) ⟨0, 0, 0, fun _ => 0⟩).besti +
        ((List.range' 0 m).foldl (flmRow a a 0 a.length) ⟨0, 0, 0, fun _ => 0⟩).bestsize ≤
          a.length ∧
      (∀ x, ((List.range' 0 m).foldl (flmRow a a 0 a.length)
        ⟨0, 0, 0, fun _ => 0⟩).j2len x = prevRow a m x) by
    obtain ⟨g1, -, g3, -⟩ := h a.length (le_refl _)
    unfold flmLoop
    rw [Nat.sub_zero]
    exact ⟨g1, g3⟩
  intro m
  induction m with
  | zero =>
    intro _
    exact ⟨rfl, fun r hr => absurd hr (Nat.not_lt_zero r), Nat.zero_le _, fun x => rfl⟩
  | succ m' ih =>
    intro hm
    have hm'lt : m' < a.length := Nat.lt_of_succ_le hm
    obtain ⟨g1, g2, g3, g4⟩ := ih (le_of_lt hm'lt)
    have hconcat : List.range' 0 (m' + 1) = List.range' 0 m' ++ [m'] := by
      rw [List.range'_concat]
      norm_num
    rw [hconcat, List.foldl_append, List.foldl_cons, List.foldl_nil]
    have hstep := flmRow_step a
      ((List.range' 0 m').foldl (flmRow a a 0 a.length) ⟨0, 0, 0, fun _ => 0⟩)
      m' hm'lt g1 g2 g3 g4
    exact ⟨hstep.1, hstep.2.1, hstep.2.2.1, fun x => hstep.2.2.2 x⟩

theorem extendLower_self (a : List Char) : ∀ x k, extendLower a a 0 0 x x k = (0, 0, k + x) := by
  intro x
  induction x with
  | zero => intro k; rfl
  | succ x' ih =>
    intro k
    rw [extendLower]
    rw [if_pos ⟨Nat.succ_pos x', Nat.succ_pos x', by rw [Nat.add_sub_cancel]⟩]
    rw [show x' + 1 - 1 = x' from rfl, ih (k + 1)]
    have : k + 1 + x' = k + (x' + 1) := by omega
    rw [this]

theorem extendUpperGo_self (a : List Char) :
    ∀ fuel s, a.length - s ≤ fuel → s ≤ a.length →
      extendUpperGo a a a.length a.length 0 0 fuel s = (0, 0, a.length) := by
  intro fuel
  induction fuel with
  | zero =>
    intro s h1 h2
    rw [extendUpperGo]
    have : s = a.length := by omega
    rw [this]
  | succ f ih =>
    intro s h1 h2
    rw [extendUpperGo]
    by_cases hs : s < a.length
    · rw [if_pos ⟨by omega, by omega, rfl⟩]
      exact ih (s + 1) (by omega) (by omega)
    · rw [if_neg (fun hc => hs (by simpa using hc.1))]
      have : s = a.length := by omega
      rw [this]

theorem find_longest_match_self (a : List Char) :
    find_longest_match a a 0 a.length 0 a.length = (0, 0, a.length) := by
  obtain ⟨h1, h2⟩ := flmLoop_aligned a
  unfold find_longest_match
  dsimp only
  rw [← h1, extendLower_self]
  dsimp only
  rw [extendUpper]
  exact extendUpperGo_self a a.length _ (Nat.sub_le _ _) (by omega)

theorem matchingSizes_self (a : List Char) (fuel : Nat) :
    matchingSizes a a (fuel + 1) 0 a.length 0 a.length = a.length := by
  rw [matchingSizes, find_longest_match_self]
  dsimp only
  by_cases h : a.length = 0
  · rw [if_pos h]
    omega
  · rw [if_neg h]
    rw [if_neg (fun hc => lt_irrefl 0 hc.1), if_neg (fun hc => by omega)]
    omega

theorem smRatio_self (a : List Char) : smRatio a a = 1 := by
  unfold smRatio
  dsimp only
  rw [matchingSizes_self]
  by_cases h : a.length + a.length = 0
  · rw [if_pos h]
  · rw [if_neg h]
    have hn : (a.length : ℚ) ≠ 0 := by
      rw [Nat.cast_ne_zero]
      omega
    field_simp
    ring

theorem name_similarity_of_normalize_eq (name1 name2 : String)
    (h : normalize name1.toList = normalize name2.toList) :
    calculate_name_similarity name1 name2 = 1 := by
  unfold calculate_name_similarity
  dsimp only
  rw [h, smRatio_self, if_pos (Or.inl (List.infix_refl _))]
  norm_num

/-- C10: whenever the two names normalize to the same string — including
two blank names, which both normalize to the empty string — the
`SequenceMatcher` ratio of the identical normalized strings is exactly 1
(even through the autojunk filter, since the extension loops of
`find_longest_match` regrow the aligned best block to the whole string),
and `calculate_name_similarity` returns exactly 1.0. -/
theorem name_similarity_one_of_same_normalization (name1 name2 : String)
    (h : normalize name1.toList = normalize name2.toList) :
    calculate_name_similarity name1 name2 = 1 :=
  name_similarity_of_normalize_eq name1 name2 h

/-- C10 witness: two whitespace-only names normalize to the empty string
and score a perfect 1.0. -/
theorem name_similarity_one_of_same_normalization_witness :
    normalize "  ".toList = normalize "".toList ∧
      calculate_name_similarity "  " "" = 1 :=
  ⟨by decide, name_similarity_one_of_same_normalization "  " "" (by decide)⟩

end MatchingEngine
